import Mathlib

/-!
Verification of the PageRank estimator in `pagerank.py`.

The embedding models Python dictionaries as association lists
(`List (Page × α)`, first-occurrence lookup, insertion order preserved),
Python floats as exact rationals (`ℚ`), Python's `round(x, 5)` as exact
round-half-even at five decimal digits, and the global random generator
as an explicit stream `ℕ → ℚ` of draws in `[0, 1)`.  Fallible operations
(Python exceptions) return `Except PyErr`; the unbounded `while True`
loop in `iterate_pagerank` is modelled with explicit fuel, `none`
meaning "still looping after that many sweeps".
-/

set_option autoImplicit false
set_option maxRecDepth 8000

namespace PageRank

/-- A page is identified by its (file)name, as in the Python corpus dict. -/
abbrev Page := String

/-- A Python dict with string keys, as an insertion-ordered association list. -/
abbrev Dict (α : Type) := List (Page × α)

/-- The key list of a dict, in insertion order (`list(d.keys())`). -/
def dkeys {α : Type} (m : Dict α) : List Page := m.map (·.1)

/-- Dict lookup `d[k]`: the value at the first (unique) matching key. -/
def dlookup {α : Type} (p : Page) : Dict α → Option α
  | [] => none
  | e :: es => if e.1 = p then some e.2 else dlookup p es

/-- Dict lookup with a default value (used where a `KeyError` is impossible). -/
def dlookupD {α : Type} (m : Dict α) (p : Page) (d : α) : α := (dlookup p m).getD d

/-- Python dict item assignment `d[k] = v`: update in place if the key is
present, otherwise append a fresh entry at the end. -/
def dset {α : Type} (m : Dict α) (p : Page) (v : α) : Dict α :=
  if p ∈ dkeys m then m.map (fun e => if e.1 = p then (e.1, v) else e) else m ++ [(p, v)]

/-- Python `d[k] += w` on an existing numeric entry. -/
def dincr (m : Dict ℚ) (p : Page) (w : ℚ) : Dict ℚ :=
  m.map (fun e => if e.1 = p then (e.1, e.2 + w) else e)

/-- The sum of all values of a dict (`sum(d.values())`). -/
def dictSum (m : Dict ℚ) : ℚ := (m.map (·.2)).sum

/-- Python exceptions that the modelled code can raise. -/
inductive PyErr : Type where
  /-- `ZeroDivisionError`, e.g. `1 / num_pages` on an empty corpus. -/
  | zeroDivisionError : PyErr
  /-- `IndexError`, e.g. `random.choice` on an empty sequence. -/
  | indexError : PyErr
  /-- `KeyError`, e.g. `corpus_copy[page]` for a page not in the dict. -/
  | keyError : PyErr
  deriving DecidableEq

instance {ε α : Type} [DecidableEq ε] [DecidableEq α] : DecidableEq (Except ε α) :=
  fun a b =>
    match a, b with
    | .ok x, .ok y =>
      if h : x = y then .isTrue (by rw [h]) else .isFalse (fun hc => h (Except.ok.inj hc))
    | .error x, .error y =>
      if h : x = y then .isTrue (by rw [h])
      else .isFalse (fun hc => h (Except.error.inj hc))
    | .ok _, .error _ => .isFalse (fun hc => Except.noConfusion hc)
    | .error _, .ok _ => .isFalse (fun hc => Except.noConfusion hc)

/-- Round-half-even to an integer, Python's rounding mode for `round`. -/
def roundHalfEven (q : ℚ) : ℤ :=
  if q - (⌊q⌋ : ℚ) < 1/2 then ⌊q⌋
  else if 1/2 < q - (⌊q⌋ : ℚ) then ⌊q⌋ + 1
  else if ⌊q⌋ % 2 = 0 then ⌊q⌋ else ⌊q⌋ + 1

/-- Python `round(q, 5)`: round half to even at five decimal digits. -/
def round5 (q : ℚ) : ℚ := (roundHalfEven (q * 100000) : ℚ) / 100000

/-- `transition_model(corpus, page, damping_factor)` (pagerank.py lines 50-82).
Builds `model = {p: 0 for p in corpus_copy}`, substitutes the full key set for
an empty outbound set, assigns `round(damping/num_links, 5)` to each link, then
adds `round((1-damping)/num_page, 5)` to every page.  A missing `page` key is
Python's `KeyError`. -/
def transition_model (corpus : Dict (List Page)) (page : Page) (damping_factor : ℚ) :
    Except PyErr (Dict ℚ) :=
  match dlookup page corpus with
  | none => .error .keyError
  | some links0 =>
    let model0 : Dict ℚ := (dkeys corpus).map (fun p => (p, 0))
    let num_page := model0.length
    let links := if links0.length = 0 then dkeys corpus else links0
    let num_links := links.length
    let link_probability := round5 (damping_factor / num_links)
    let model1 := links.foldl (fun m l => dset m l link_probability) model0
    let page_probability := round5 ((1 - damping_factor) / num_page)
    .ok ((dkeys corpus).foldl (fun m p => dincr m p page_probability) model1)

/-- `random.choices(list(model.keys()), weights=model.values())[0]`: walk the
cumulative weights and return the first page whose cumulative weight exceeds
`u * total`; the last page is returned when no earlier one matches (mirroring
`bisect` with `hi = n - 1`). -/
def choicesPick (x : ℚ) : ℚ → Dict ℚ → Page
  | _, [] => ""
  | _, [e] => e.1
  | acc, e :: es => if x < acc + e.2 then e.1 else choicesPick x (acc + e.2) es

/-- The sampling loop of `sample_pagerank` (lines 98-101): `steps` more draws,
reading the random stream `u` from position `i`, starting at `page`. -/
def sampleSteps (corpus : Dict (List Page)) (damping_factor : ℚ) (u : ℕ → ℚ) :
    ℕ → ℕ → Page → Except PyErr (List Page)
  | 0, _, _ => .ok []
  | steps + 1, i, page => do
    let model ← transition_model corpus page damping_factor
    let page2 := choicesPick (u i * dictSum model) 0 model
    let rest ← sampleSteps corpus damping_factor u steps (i + 1) page2
    .ok (page2 :: rest)

/-- `sample_pagerank(corpus, damping_factor, n)` (pagerank.py lines 85-105).
`random.choice` on an empty corpus raises `IndexError`; the first page is
`keys[⌊u 0 · N⌋]`; each later sample is drawn from the transition model; the
returned dict maps each visited page to `samples.count(page) / n` (division by
zero when `n = 0`). -/
def sample_pagerank (corpus : Dict (List Page)) (damping_factor : ℚ) (n : ℕ)
    (u : ℕ → ℚ) : Except PyErr (Dict ℚ) :=
  if (dkeys corpus).length = 0 then .error .indexError
  else
    let page := (dkeys corpus).getD (⌊u 0 * ((dkeys corpus).length : ℚ)⌋).toNat ""
    do
      let rest ← sampleSteps corpus damping_factor u (n - 1) 1 page
      let samples := page :: rest
      if n = 0 then .error .zeroDivisionError
      else .ok (samples.foldl (fun m p => dset m p ((samples.count p : ℚ) / n)) [])

/-- The per-page loop of `is_coverged` (lines 114-117): `False` as soon as some
page's rank grew by more than `CONVERGENCE = 0.001`; `none` is a `KeyError`. -/
def convergedLoop (old_ranks new_ranks : Dict ℚ) : List Page → Option Bool
  | [] => some true
  | p :: ps =>
    match dlookup p new_ranks, dlookup p old_ranks with
    | some nv, some ov =>
      if nv - ov > 1/1000 then some false else convergedLoop old_ranks new_ranks ps
    | _, _ => none

/-- `is_coverged(old_ranks, new_ranks)` (pagerank.py lines 108-118): `False`
when either dict is empty, otherwise `False` iff some page's new rank exceeds
its old rank by more than `0.001` (negative swings are ignored). -/
def is_coverged (old_ranks new_ranks : Dict ℚ) : Option Bool :=
  if old_ranks = [] ∨ new_ranks = [] then some false
  else convergedLoop old_ranks new_ranks (dkeys old_ranks)

/-- The inner `for page in corpus_copy` loop of `iterate_pagerank`
(lines 150-156): threads the (mutated) `corpus_copy`, substituting the full
key set for an empty outbound set, and accumulates
`ranks[page] / len(corpus_copy[page])` over the pages that link to `rank`. -/
def linkProbLoop (ranks : Dict ℚ) (rank : Page)
    (st : Dict (List Page) × ℚ) (page : Page) : Dict (List Page) × ℚ :=
  let cc := if (dlookupD st.1 page []).length = 0 then dset st.1 page (dkeys st.1) else st.1
  let linkset := dlookupD cc page []
  if rank ∈ linkset then (cc, st.2 + dlookupD ranks page 0 / (linkset.length : ℚ))
  else (cc, st.2)

/-- The body of the `for rank in ranks` loop (lines 146-158): recompute the
rank of `rank` from the current (partially rewritten) `ranks` dict and assign
it in place. -/
def sweepStep (damping_factor : ℚ) (num_pages : ℕ)
    (st : Dict (List Page) × Dict ℚ) (rank : Page) : Dict (List Page) × Dict ℚ :=
  let random_prob := (1 - damping_factor) / (num_pages : ℚ)
  let inner := (dkeys st.1).foldl (linkProbLoop st.2 rank) (st.1, 0)
  (inner.1, dset st.2 rank (random_prob + damping_factor * inner.2))

/-- One `for rank in ranks` sweep of `iterate_pagerank` (lines 146-158): the
ranks dict is updated in place, so later pages in the same sweep read values
already rewritten earlier in the sweep. -/
def sweep (damping_factor : ℚ) (num_pages : ℕ) (st : Dict (List Page) × Dict ℚ) :
    Dict (List Page) × Dict ℚ :=
  (dkeys st.2).foldl (sweepStep damping_factor num_pages) st

/-- The `while True` loop of `iterate_pagerank` (lines 140-158), with explicit
fuel: `none` means the loop is still running after `fuel` checks. -/
def iterateLoop (damping_factor : ℚ) (num_pages : ℕ) :
    ℕ → Dict (List Page) → Dict ℚ → Dict ℚ → Option (Except PyErr (Dict ℚ))
  | 0, _, _, _ => none
  | fuel + 1, cc, old_ranks, ranks =>
    match is_coverged old_ranks ranks with
    | none => some (.error .keyError)
    | some true => some (.ok ranks)
    | some false =>
      let st := sweep damping_factor num_pages (cc, ranks)
      iterateLoop damping_factor num_pages fuel st.1 ranks st.2

/-- `iterate_pagerank(corpus, damping_factor)` (pagerank.py lines 121-160).
`1 / num_pages` raises `ZeroDivisionError` on an empty corpus; otherwise every
page starts at `1/N` and the loop sweeps until `is_coverged` holds. -/
def iterate_pagerank (fuel : ℕ) (corpus : Dict (List Page)) (damping_factor : ℚ) :
    Option (Except PyErr (Dict ℚ)) :=
  let corpus_copy := corpus
  let num_pages := (dkeys corpus_copy).length
  if num_pages = 0 then some (.error .zeroDivisionError)
  else
    let equal_probability : ℚ := 1 / (num_pages : ℚ)
    let ranks := (dkeys corpus_copy).map (fun p => (p, equal_probability))
    iterateLoop damping_factor num_pages fuel corpus_copy [] ranks

/-- Modelled from the spec (§4.3 step 2), not from the source: a synchronous
sweep that recomputes every page's rank from the previous iteration's full
snapshot `old`, with `eff q` the effective outbound set of `q` (the full
self-inclusive page set when `q` has no outbound links). -/
def syncSweepSpec (corpus : Dict (List Page)) (damping_factor : ℚ) (old : Dict ℚ) :
    Dict ℚ :=
  let N := (dkeys corpus).length
  let eff := fun q => if (dlookupD corpus q []).length = 0 then dkeys corpus
                      else dlookupD corpus q []
  (dkeys corpus).map (fun p =>
    (p, (1 - damping_factor) / (N : ℚ) +
        damping_factor *
          ((dkeys corpus).map (fun q =>
            if p ∈ eff q then dlookupD old q 0 / ((eff q).length : ℚ) else 0)).sum))

/-- The call sequence of `main` (pagerank.py lines 15-20): the sampling
estimator runs first, consuming the random stream `u`, then the iterative
estimator runs on the same corpus.  Parameters are generalized. -/
def runBoth (corpus : Dict (List Page)) (damping_factor : ℚ) (n fuel : ℕ)
    (u : ℕ → ℚ) : Except PyErr (Dict ℚ) × Option (Except PyErr (Dict ℚ)) :=
  (sample_pagerank corpus damping_factor n u, iterate_pagerank fuel corpus damping_factor)

/-!
A reference-level (heap) embedding of the same two functions, for the frame
claim: Python dicts and sets are heap cells addressed by allocation index, a
corpus dict cell maps each page to the address of its neighbor-set cell,
`corpus.copy()` is a shallow copy (a fresh dict cell sharing set addresses),
and `corpus_copy[page] = {...}` writes only to the fresh dict cell, pointing
it at a freshly allocated set cell.
-/

/-- The Python heap: dict cells (page ↦ set address) and set cells. -/
structure Heap : Type where
  dicts : List (Dict ℕ)
  sets : List (List Page)

/-- Read the dict cell at address `a`. -/
def Heap.getDict (h : Heap) (a : ℕ) : Dict ℕ := h.dicts.getD a []

/-- Read the set cell at address `a`. -/
def Heap.getSet (h : Heap) (a : ℕ) : List Page := h.sets.getD a []

/-- Allocate a fresh dict cell (`d.copy()` allocates; shares set addresses). -/
def Heap.allocDict (h : Heap) (t : Dict ℕ) : Heap × ℕ :=
  (⟨h.dicts ++ [t], h.sets⟩, h.dicts.length)

/-- Allocate a fresh set cell (`{page for page in corpus_copy}`). -/
def Heap.allocSet (h : Heap) (s : List Page) : Heap × ℕ :=
  (⟨h.dicts, h.sets ++ [s]⟩, h.sets.length)

/-- `d[k] = v` on the dict cell at address `a`. -/
def Heap.dictAssign (h : Heap) (a : ℕ) (p : Page) (sref : ℕ) : Heap :=
  ⟨h.dicts.set a (dset (h.getDict a) p sref), h.sets⟩

/-- The no-outbound-links substitution on the heap (lines 66-67 and 152-153):
if the set cell referenced by `page` in the dict cell `cpy` is empty, allocate
a set holding every key and repoint `cpy[page]` at it. -/
def substituteH (h : Heap) (cpy : ℕ) (page : Page) : Heap :=
  match dlookup page (h.getDict cpy) with
  | none => h
  | some sref =>
    if (h.getSet sref).length = 0 then
      let al := h.allocSet (dkeys (h.getDict cpy))
      al.1.dictAssign cpy page al.2
    else h

/-- `transition_model` on the heap (lines 50-82): shallow-copies the corpus
dict cell, substitutes on the copy only, and computes the same distribution as
the pure `transition_model`. -/
def transition_modelH (h : Heap) (corpusRef : ℕ) (page : Page) (damping_factor : ℚ) :
    Heap × Except PyErr (Dict ℚ) :=
  let al := h.allocDict (h.getDict corpusRef)
  let h1 := al.1
  let cpy := al.2
  match dlookup page (h1.getDict cpy) with
  | none => (h1, .error .keyError)
  | some _ =>
    let model0 : Dict ℚ := (dkeys (h1.getDict cpy)).map (fun p => (p, 0))
    let num_page := model0.length
    let h2 := substituteH h1 cpy page
    let links := h2.getSet ((dlookup page (h2.getDict cpy)).getD 0)
    let num_links := links.length
    let link_probability := round5 (damping_factor / num_links)
    let model1 := links.foldl (fun m l => dset m l link_probability) model0
    let page_probability := round5 ((1 - damping_factor) / num_page)
    (h2, .ok ((dkeys (h1.getDict cpy)).foldl (fun m p => dincr m p page_probability) model1))

/-- The inner `for page in corpus_copy` loop of `iterate_pagerank` on the heap
(lines 150-156). -/
def linkProbLoopH (ranks : Dict ℚ) (rank : Page) (cpy : ℕ)
    (st : Heap × ℚ) (page : Page) : Heap × ℚ :=
  let h := substituteH st.1 cpy page
  let linkset := h.getSet ((dlookup page (h.getDict cpy)).getD 0)
  if rank ∈ linkset then (h, st.2 + dlookupD ranks page 0 / (linkset.length : ℚ))
  else (h, st.2)

/-- One sweep of `iterate_pagerank` on the heap (lines 146-158). -/
def sweepH (damping_factor : ℚ) (num_pages : ℕ) (cpy : ℕ) (st : Heap × Dict ℚ) :
    Heap × Dict ℚ :=
  (dkeys st.2).foldl
    (fun st rank =>
      let random_prob := (1 - damping_factor) / (num_pages : ℚ)
      let inner := (dkeys (st.1.getDict cpy)).foldl (linkProbLoopH st.2 rank cpy) (st.1, 0)
      (inner.1, dset st.2 rank (random_prob + damping_factor * inner.2)))
    st

/-- The `while True` loop of `iterate_pagerank` on the heap (lines 140-158). -/
def iterateLoopH (damping_factor : ℚ) (num_pages : ℕ) (cpy : ℕ) :
    ℕ → Heap → Dict ℚ → Dict ℚ → Heap × Option (Except PyErr (Dict ℚ))
  | 0, h, _, _ => (h, none)
  | fuel + 1, h, old_ranks, ranks =>
    match is_coverged old_ranks ranks with
    | none => (h, some (.error .keyError))
    | some true => (h, some (.ok ranks))
    | some false =>
      let st := sweepH damping_factor num_pages cpy (h, ranks)
      iterateLoopH damping_factor num_pages cpy fuel st.1 ranks st.2

/-- `iterate_pagerank` on the heap (lines 121-160): `corpus.copy()` allocates
a fresh dict cell sharing the caller's set cells; all substitution writes go
to that copy. -/
def iterate_pagerankH (fuel : ℕ) (h : Heap) (corpusRef : ℕ) (damping_factor : ℚ) :
    Heap × Option (Except PyErr (Dict ℚ)) :=
  let al := h.allocDict (h.getDict corpusRef)
  let h1 := al.1
  let cpy := al.2
  let num_pages := (dkeys (h1.getDict cpy)).length
  if num_pages = 0 then (h1, some (.error .zeroDivisionError))
  else
    let equal_probability : ℚ := 1 / (num_pages : ℚ)
    let ranks := (dkeys (h1.getDict cpy)).map (fun p => (p, equal_probability))
    iterateLoopH damping_factor num_pages cpy fuel h1 [] ranks

/-! Basic dictionary lemmas. -/

@[simp] theorem dkeys_nil {α : Type} : dkeys ([] : Dict α) = [] := rfl

@[simp] theorem dkeys_cons {α : Type} (e : Page × α) (es : Dict α) :
    dkeys (e :: es) = e.1 :: dkeys es := rfl

@[simp] theorem dkeys_append {α : Type} (m m' : Dict α) :
    dkeys (m ++ m') = dkeys m ++ dkeys m' := by
  simp [dkeys]

theorem dlookup_isSome_iff_mem {α : Type} (m : Dict α) (p : Page) :
    (dlookup p m).isSome = true ↔ p ∈ dkeys m := by
  induction m with
  | nil => simp [dlookup]
  | cons e es ih =>
    by_cases h : e.1 = p <;> simp [dlookup, h, ih]
    exact fun hp => (h hp.symm).elim

theorem dlookup_mem {α : Type} {m : Dict α} {p : Page} {v : α}
    (h : dlookup p m = some v) : (p, v) ∈ m := by
  induction m with
  | nil => simp [dlookup] at h
  | cons e es ih =>
    by_cases he : e.1 = p
    · simp only [dlookup, he, if_pos] at h
      cases h
      have : (p, e.2) = e := by
        obtain ⟨a, b⟩ := e
        cases he
        rfl
      rw [this]
      exact List.mem_cons_self _ _
    · simp only [dlookup, he, if_neg, not_false_iff] at h
      exact List.mem_cons_of_mem _ (ih h)

theorem dlookup_eq_of_mem_nodup {α : Type} {m : Dict α} {p : Page} {v : α}
    (hN : (dkeys m).Nodup) (h : (p, v) ∈ m) : dlookup p m = some v := by
  induction m with
  | nil => simp at h
  | cons e es ih =>
    simp only [dkeys_cons, List.nodup_cons] at hN
    rcases List.mem_cons.1 h with h | h
    · subst h; simp [dlookup]
    · have hne : e.1 ≠ p := by
        intro he
        exact hN.1 (he ▸ (by exact List.mem_map_of_mem _ h : p ∈ es.map (·.1)))
      simp only [dlookup, hne, if_neg, not_false_iff]
      exact ih hN.2 h

theorem dkeys_dset_of_mem {α : Type} {m : Dict α} {p : Page} (v : α)
    (h : p ∈ dkeys m) : dkeys (dset m p v) = dkeys m := by
  rw [dset, if_pos h]
  simp only [dkeys, List.map_map]
  refine List.map_congr_left fun e _ => ?_
  by_cases he : e.1 = p <;> simp [he]

theorem dkeys_dset_of_not_mem {α : Type} {m : Dict α} {p : Page} (v : α)
    (h : p ∉ dkeys m) : dkeys (dset m p v) = dkeys m ++ [p] := by
  rw [dset, if_neg h]
  simp

theorem dlookup_mapUpdate_self {α : Type} (m : Dict α) (p : Page) (v : α) :
    dlookup p (m.map (fun e => if e.1 = p then (e.1, v) else e)) =
      (dlookup p m).map (fun _ => v) := by
  induction m with
  | nil => simp [dlookup]
  | cons e es ih =>
    by_cases he : e.1 = p <;> simp [dlookup, he, ih]

theorem dlookup_mapUpdate_ne {α : Type} (m : Dict α) {p q : Page} (v : α) (h : q ≠ p) :
    dlookup q (m.map (fun e => if e.1 = p then (e.1, v) else e)) = dlookup q m := by
  have hpq : ¬(p = q) := fun hp => h hp.symm
  induction m with
  | nil => simp [dlookup]
  | cons e es ih =>
    by_cases he : e.1 = p
    · have hne : e.1 ≠ q := fun hq => h (hq.symm.trans he)
      simp [dlookup, he, hne, hpq, h, ih]
    · by_cases heq : e.1 = q <;> simp [dlookup, he, heq, hpq, h, ih]

theorem dlookup_append_singleton_ne {α : Type} (m : Dict α) {p q : Page} (v : α)
    (h : q ≠ p) : dlookup q (m ++ [(p, v)]) = dlookup q m := by
  induction m with
  | nil =>
    show (if p = q then some v else none) = none
    rw [if_neg (fun hp => h hp.symm)]
  | cons e es ih =>
    by_cases heq : e.1 = q <;> simp [dlookup, heq, ih]

theorem dlookup_append_of_not_mem {α : Type} (m m' : Dict α) {p : Page}
    (h : p ∉ dkeys m) : dlookup p (m ++ m') = dlookup p m' := by
  induction m with
  | nil => simp
  | cons e es ih =>
    have hcons := h
    rw [dkeys_cons, List.mem_cons] at hcons
    push_neg at hcons
    have he : e.1 ≠ p := fun hp => hcons.1 hp.symm
    simpa [dlookup, he] using ih hcons.2

theorem dlookup_dset_self {α : Type} (m : Dict α) (p : Page) (v : α) :
    dlookup p (dset m p v) = some v := by
  rw [dset]
  by_cases h : p ∈ dkeys m
  · rw [if_pos h, dlookup_mapUpdate_self]
    obtain ⟨w, hw⟩ := Option.isSome_iff_exists.1 ((dlookup_isSome_iff_mem m p).2 h)
    simp [hw]
  · rw [if_neg h, dlookup_append_of_not_mem _ _ h]
    simp [dlookup]

theorem dlookup_dset_ne {α : Type} (m : Dict α) {p q : Page} (v : α) (h : q ≠ p) :
    dlookup q (dset m p v) = dlookup q m := by
  rw [dset]
  by_cases hm : p ∈ dkeys m
  · rw [if_pos hm, dlookup_mapUpdate_ne m v h]
  · rw [if_neg hm, dlookup_append_singleton_ne m v h]

theorem dkeys_dincr (m : Dict ℚ) (p : Page) (w : ℚ) :
    dkeys (dincr m p w) = dkeys m := by
  simp only [dincr, dkeys, List.map_map]
  refine List.map_congr_left fun e _ => ?_
  by_cases he : e.1 = p <;> simp [he]

theorem dlookup_dincr_self (m : Dict ℚ) (p : Page) (w : ℚ) :
    dlookup p (dincr m p w) = (dlookup p m).map (· + w) := by
  induction m with
  | nil => simp [dlookup, dincr]
  | cons e es ih =>
    by_cases he : e.1 = p
    · simp [dlookup, dincr, he]
    · simpa [dlookup, dincr, he] using ih

theorem dlookup_dincr_ne (m : Dict ℚ) {p q : Page} (w : ℚ) (h : q ≠ p) :
    dlookup q (dincr m p w) = dlookup q m := by
  have hpq : ¬(p = q) := fun hp => h hp.symm
  induction m with
  | nil => simp [dlookup, dincr]
  | cons e es ih =>
    by_cases he : e.1 = p
    · have hne : e.1 ≠ q := fun hq => h (hq.symm.trans he)
      simpa [dlookup, dincr, he, hne, hpq, h] using ih
    · by_cases heq : e.1 = q
      · simp [dlookup, dincr, he, heq, hpq, h]
      · simpa [dlookup, dincr, he, heq, hpq, h] using ih

/-! Lemmas about folded dict updates (the shape of every loop in the source). -/

theorem dlookup_foldl_dset {α : Type} (v : Page → α) (L : List Page) (m : Dict α)
    (q : Page) :
    dlookup q (L.foldl (fun m p => dset m p (v p)) m) =
      if q ∈ L then some (v q) else dlookup q m := by
  induction L generalizing m with
  | nil => simp
  | cons a L ih =>
    rw [List.foldl_cons, ih]
    by_cases hL : q ∈ L
    · simp [hL]
    · by_cases ha : q = a
      · subst ha; simp [hL, dlookup_dset_self]
      · simp [hL, ha, dlookup_dset_ne m (v a) ha]

theorem dkeys_dset_subset {α : Type} (m : Dict α) (p : Page) (v : α) :
    ∀ q ∈ dkeys m, q ∈ dkeys (dset m p v) := by
  intro q hq
  by_cases h : p ∈ dkeys m
  · rw [dkeys_dset_of_mem v h]; exact hq
  · rw [dkeys_dset_of_not_mem v h]; exact List.mem_append_left _ hq

theorem dkeys_foldl_dset_of_subset {α : Type} (v : Page → α) (L : List Page)
    (m : Dict α) (h : ∀ l ∈ L, l ∈ dkeys m) :
    dkeys (L.foldl (fun m p => dset m p (v p)) m) = dkeys m := by
  induction L generalizing m with
  | nil => rfl
  | cons a L ih =>
    rw [List.foldl_cons]
    have ha : a ∈ dkeys m := h a (List.mem_cons_self _ _)
    rw [ih (dset m a (v a)) (fun l hl => by
      rw [dkeys_dset_of_mem (v a) ha]
      exact h l (List.mem_cons_of_mem _ hl))]
    exact dkeys_dset_of_mem (v a) ha

theorem mem_dkeys_foldl_dset {α : Type} (v : Page → α) (L : List Page) (m : Dict α)
    (q : Page) :
    q ∈ dkeys (L.foldl (fun m p => dset m p (v p)) m) ↔ q ∈ L ∨ q ∈ dkeys m := by
  rw [← dlookup_isSome_iff_mem, dlookup_foldl_dset, ← dlookup_isSome_iff_mem]
  by_cases hL : q ∈ L <;> simp [hL]

theorem nodup_dkeys_foldl_dset {α : Type} (v : Page → α) (L : List Page) (m : Dict α)
    (h : (dkeys m).Nodup) :
    (dkeys (L.foldl (fun m p => dset m p (v p)) m)).Nodup := by
  induction L generalizing m with
  | nil => exact h
  | cons a L ih =>
    rw [List.foldl_cons]
    refine ih (dset m a (v a)) ?_
    by_cases ha : a ∈ dkeys m
    · rw [dkeys_dset_of_mem (v a) ha]; exact h
    · rw [dkeys_dset_of_not_mem (v a) ha]
      refine List.Nodup.append h (List.nodup_singleton a) ?_
      intro x hx hxa
      rw [List.mem_singleton] at hxa
      exact ha (hxa ▸ hx)

theorem entries_foldl_dset {α : Type} (v : Page → α) (L : List Page) (m : Dict α)
    (h : ∀ e ∈ m, e.2 = v e.1) :
    ∀ e ∈ L.foldl (fun m p => dset m p (v p)) m, e.2 = v e.1 := by
  induction L generalizing m with
  | nil => exact h
  | cons a L ih =>
    rw [List.foldl_cons]
    refine ih (dset m a (v a)) ?_
    intro e he
    rw [dset] at he
    by_cases ha : a ∈ dkeys m
    · rw [if_pos ha] at he
      obtain ⟨e', he', rfl⟩ := List.mem_map.1 he
      by_cases h1 : e'.1 = a
      · simp [h1]
      · simp only [h1, if_neg, not_false_iff]
        exact h e' he'
    · rw [if_neg ha] at he
      rcases List.mem_append.1 he with he | he
      · exact h e he
      · rcases List.mem_singleton.1 he with rfl
        rfl

theorem dkeys_foldl_dincr (w : ℚ) (L : List Page) (m : Dict ℚ) :
    dkeys (L.foldl (fun m p => dincr m p w) m) = dkeys m := by
  induction L generalizing m with
  | nil => rfl
  | cons a L ih => rw [List.foldl_cons, ih, dkeys_dincr]

theorem dlookup_foldl_dincr (w : ℚ) (L : List Page) (m : Dict ℚ) (hN : L.Nodup)
    (q : Page) :
    dlookup q (L.foldl (fun m p => dincr m p w) m) =
      if q ∈ L then (dlookup q m).map (· + w) else dlookup q m := by
  induction L generalizing m with
  | nil => simp
  | cons a L ih =>
    rw [List.nodup_cons] at hN
    rw [List.foldl_cons, ih (dincr m a w) hN.2]
    by_cases hL : q ∈ L
    · have hqa : q ≠ a := fun hq => hN.1 (hq ▸ hL)
      simp [hL, dlookup_dincr_ne m w hqa]
    · by_cases ha : q = a
      · subst ha; simp [hL, dlookup_dincr_self]
      · simp [hL, ha, dlookup_dincr_ne m w ha]

theorem dictSum_eq_sum_dkeys (m : Dict ℚ) (h : (dkeys m).Nodup) :
    dictSum m = ((dkeys m).map (fun p => dlookupD m p 0)).sum := by
  induction m with
  | nil => rfl
  | cons e es ih =>
    rw [dkeys_cons, List.nodup_cons] at h
    have h1 : dlookupD (e :: es) e.1 0 = e.2 := by
      simp [dlookupD, dlookup]
    have h2 : (dkeys es).map (fun p => dlookupD (e :: es) p 0) =
        (dkeys es).map (fun p => dlookupD es p 0) := by
      refine List.map_congr_left fun p hp => ?_
      have hne : e.1 ≠ p := fun he => h.1 (he ▸ hp)
      simp [dlookupD, dlookup, hne]
    calc dictSum (e :: es) = e.2 + dictSum es := by simp [dictSum]
      _ = dlookupD (e :: es) e.1 0 + ((dkeys es).map (fun p => dlookupD es p 0)).sum := by
          rw [h1, ih h.2]
      _ = _ := by rw [dkeys_cons, List.map_cons, List.sum_cons, h2]

/-! Rounding error bounds. -/

theorem roundHalfEven_close (q : ℚ) : |(roundHalfEven q : ℚ) - q| ≤ 1/2 := by
  have h0 : ((⌊q⌋ : ℤ) : ℚ) ≤ q := Int.floor_le q
  have h1 : q < (⌊q⌋ : ℚ) + 1 := Int.lt_floor_add_one q
  rw [roundHalfEven]
  by_cases hr : q - (⌊q⌋ : ℚ) < 1/2
  · rw [if_pos hr, abs_le]
    constructor <;> linarith
  · rw [if_neg hr]
    by_cases hr2 : 1/2 < q - (⌊q⌋ : ℚ)
    · rw [if_pos hr2, abs_le]
      push_cast
      constructor <;> linarith
    · rw [if_neg hr2]
      have heq : q - (⌊q⌋ : ℚ) = 1/2 := le_antisymm (not_lt.1 hr2) (not_lt.1 hr)
      by_cases he : ⌊q⌋ % 2 = 0
      · rw [if_pos he, abs_le]
        constructor <;> linarith
      · rw [if_neg he, abs_le]
        push_cast
        constructor <;> linarith

theorem round5_close (q : ℚ) : |round5 q - q| ≤ 1/200000 := by
  have h := roundHalfEven_close (q * 100000)
  rw [round5]
  have heq : (roundHalfEven (q * 100000) : ℚ) / 100000 - q =
      ((roundHalfEven (q * 100000) : ℚ) - q * 100000) / 100000 := by ring
  rw [heq, abs_div, abs_of_pos (by norm_num : (0:ℚ) < 100000)]
  calc |(roundHalfEven (q * 100000) : ℚ) - q * 100000| / 100000
      ≤ (1/2) / 100000 := by gcongr
    _ = 1/200000 := by norm_num

/-! A closed form for `transition_model`. -/

theorem dkeys_map_self {α : Type} (K : List Page) (f : Page → α) :
    dkeys (K.map (fun p => (p, f p))) = K := by
  have h : ((fun x : Page × α => x.1) ∘ fun p => (p, f p)) = id := rfl
  rw [dkeys, List.map_map, h, List.map_id]

theorem dlookup_map_self {α : Type} (K : List Page) (f : Page → α) (q : Page) :
    dlookup q (K.map (fun p => (p, f p))) = if q ∈ K then some (f q) else none := by
  induction K with
  | nil => simp [dlookup]
  | cons a K ih =>
    by_cases ha : a = q
    · subst ha; simp [dlookup]
    · have : ¬(q = a) := fun h => ha h.symm
      simp [dlookup, ha, this, ih]

theorem eq_map_of_dlookup {α : Type} (m : Dict α) (K : List Page) (f : Page → α)
    (hN : K.Nodup) (hk : dkeys m = K) (hv : ∀ q ∈ K, dlookup q m = some (f q)) :
    m = K.map (fun p => (p, f p)) := by
  induction m generalizing K with
  | nil => simp at hk; subst hk; rfl
  | cons e es ih =>
    rw [dkeys_cons] at hk
    subst hk
    rw [List.nodup_cons] at hN
    have he : e = (e.1, f e.1) := by
      have h2 := hv e.1 (List.mem_cons_self _ _)
      rw [show dlookup e.1 (e :: es) = some e.2 by simp [dlookup]] at h2
      obtain ⟨a, b⟩ := e
      simp only [Option.some.injEq] at h2
      simp [h2]
    rw [List.map_cons, ← he]
    congr 1
    refine ih (dkeys es) hN.2 rfl fun q hq => ?_
    have hne : e.1 ≠ q := fun h => hN.1 (h ▸ hq)
    have h3 := hv q (List.mem_cons_of_mem _ hq)
    rwa [show dlookup q (e :: es) = dlookup q es by simp [dlookup, hne]] at h3

/-- The effective outbound set of `page` (lines 66-67 / 152-153): the full key
set when the stored outbound set is empty. -/
def effectiveLinks (corpus : Dict (List Page)) (links0 : List Page) : List Page :=
  if links0.length = 0 then dkeys corpus else links0

/-- What `transition_model` actually returns on a well-formed corpus: it
succeeds, its key list is exactly the corpus key list, and every corpus page
is mapped to `round(damping/k, 5) + round((1-damping)/N, 5)` if it is an
effective link and to `round((1-damping)/N, 5)` otherwise. -/
theorem transition_model_spec (corpus : Dict (List Page)) (page : Page) (d : ℚ)
    (links0 : List Page) (hN : (dkeys corpus).Nodup)
    (hl : dlookup page corpus = some links0)
    (hsub : ∀ l ∈ links0, l ∈ dkeys corpus) :
    ∃ model, transition_model corpus page d = .ok model ∧
      dkeys model = dkeys corpus ∧
      ∀ q ∈ dkeys corpus, dlookup q model =
        some ((if q ∈ effectiveLinks corpus links0 then
                round5 (d / ((effectiveLinks corpus links0).length : ℚ)) else 0)
              + round5 ((1 - d) / ((dkeys corpus).length : ℚ))) := by
  have hsub' : ∀ l ∈ effectiveLinks corpus links0, l ∈ dkeys corpus := by
    intro l hl'
    rw [effectiveLinks] at hl'
    by_cases h0 : links0.length = 0
    · rwa [if_pos h0] at hl'
    · rw [if_neg h0] at hl'
      exact hsub l hl'
  have hok : transition_model corpus page d = .ok
      ((dkeys corpus).foldl
        (fun m p => dincr m p
          (round5 ((1 - d) / ((((dkeys corpus).map (fun p => (p, (0:ℚ)))).length : ℕ) : ℚ))))
        ((effectiveLinks corpus links0).foldl
          (fun m l => dset m l
            (round5 (d / (((effectiveLinks corpus links0).length : ℕ) : ℚ))))
          ((dkeys corpus).map (fun p => (p, (0:ℚ)))))) := by
    simp only [transition_model, hl, effectiveLinks]
  rw [List.length_map] at hok
  refine ⟨_, hok, ?_, ?_⟩
  · rw [dkeys_foldl_dincr]
    rw [show (fun m l => dset m l
          (round5 (d / (((effectiveLinks corpus links0).length : ℕ) : ℚ)))) =
        (fun m l => dset m l ((fun _ =>
          round5 (d / (((effectiveLinks corpus links0).length : ℕ) : ℚ))) l)) from rfl]
    rw [dkeys_foldl_dset_of_subset _ _ _ (by rw [dkeys_map_self]; exact hsub')]
    exact dkeys_map_self _ _
  · intro q hq
    rw [dlookup_foldl_dincr _ _ _ hN q, if_pos hq]
    rw [show (fun m l => dset m l
          (round5 (d / (((effectiveLinks corpus links0).length : ℕ) : ℚ)))) =
        (fun m l => dset m l ((fun _ =>
          round5 (d / (((effectiveLinks corpus links0).length : ℕ) : ℚ))) l)) from rfl]
    rw [dlookup_foldl_dset]
    by_cases hqe : q ∈ effectiveLinks corpus links0
    · simp [hqe]
    · rw [if_neg hqe, if_neg hqe, dlookup_map_self, if_pos hq]
      simp

theorem sum_map_ite_mem (K eff : List Page) (c : ℚ) (hNK : K.Nodup) (hNe : eff.Nodup)
    (hsub : ∀ l ∈ eff, l ∈ K) :
    (K.map (fun q => if q ∈ eff then c else 0)).sum = (eff.length : ℚ) * c := by
  rw [← List.sum_toFinset _ hNK, ← Finset.sum_filter]
  have hfe : K.toFinset.filter (· ∈ eff) = eff.toFinset := by
    ext q
    simp only [Finset.mem_filter, List.mem_toFinset]
    exact ⟨fun h => h.2, fun h => ⟨hsub q h, h⟩⟩
  rw [hfe, Finset.sum_const, List.toFinset_card_of_nodup hNe, nsmul_eq_mul]

theorem sum_map_const_rat (K : List Page) (c : ℚ) :
    (K.map (fun _ => c)).sum = (K.length : ℚ) * c := by
  rw [List.map_const', List.sum_replicate, nsmul_eq_mul]

theorem effectiveLinks_nodup (corpus : Dict (List Page)) (links0 : List Page)
    (hN : (dkeys corpus).Nodup) (hld : links0.Nodup) :
    (effectiveLinks corpus links0).Nodup := by
  rw [effectiveLinks]
  by_cases h0 : links0.length = 0
  · rw [if_pos h0]; exact hN
  · rw [if_neg h0]; exact hld

theorem effectiveLinks_pos (corpus : Dict (List Page)) (links0 : List Page)
    {page : Page} (hl : dlookup page corpus = some links0) :
    0 < (effectiveLinks corpus links0).length := by
  rw [effectiveLinks]
  by_cases h0 : links0.length = 0
  · rw [if_pos h0]
    have : page ∈ dkeys corpus :=
      (dlookup_isSome_iff_mem corpus page).1 (by rw [hl]; rfl)
    exact List.length_pos.2 (List.ne_nil_of_mem this)
  · rw [if_neg h0]
    exact Nat.pos_of_ne_zero h0

/-- The rounded probabilities `k * round5(d/k) + N * round5((1-d)/N)` sum to
`1` up to the accumulated rounding error `(k + N) / 200000`. -/
theorem rounded_sum_close (d : ℚ) (k N : ℕ) (hk : 0 < k) (hN : 0 < N) :
    |(k : ℚ) * round5 (d / (k : ℚ)) + (N : ℚ) * round5 ((1 - d) / (N : ℚ)) - 1| ≤
      ((k : ℚ) + (N : ℚ)) / 200000 := by
  have hk0 : ((k : ℕ) : ℚ) ≠ 0 := Nat.cast_ne_zero.2 hk.ne'
  have hN0 : ((N : ℕ) : ℚ) ≠ 0 := Nat.cast_ne_zero.2 hN.ne'
  have e1 : (k : ℚ) * round5 (d / (k : ℚ)) + (N : ℚ) * round5 ((1 - d) / (N : ℚ)) - 1 =
      (k : ℚ) * (round5 (d / (k : ℚ)) - d / (k : ℚ)) +
      (N : ℚ) * (round5 ((1 - d) / (N : ℚ)) - (1 - d) / (N : ℚ)) := by
    field_simp
    ring
  rw [e1]
  have hka : |(k : ℚ) * (round5 (d / (k : ℚ)) - d / (k : ℚ))| ≤ (k : ℚ) / 200000 := by
    rw [abs_mul, abs_of_nonneg (by positivity : (0:ℚ) ≤ (k : ℚ))]
    calc (k : ℚ) * |round5 (d / (k : ℚ)) - d / (k : ℚ)|
        ≤ (k : ℚ) * (1 / 200000) := by
          have := round5_close (d / (k : ℚ))
          gcongr
      _ = (k : ℚ) / 200000 := by ring
  have hNa : |(N : ℚ) * (round5 ((1 - d) / (N : ℚ)) - (1 - d) / (N : ℚ))| ≤
      (N : ℚ) / 200000 := by
    rw [abs_mul, abs_of_nonneg (by positivity : (0:ℚ) ≤ (N : ℚ))]
    calc (N : ℚ) * |round5 ((1 - d) / (N : ℚ)) - (1 - d) / (N : ℚ)|
        ≤ (N : ℚ) * (1 / 200000) := by
          have := round5_close ((1 - d) / (N : ℚ))
          gcongr
      _ = (N : ℚ) / 200000 := by ring
  calc |(k : ℚ) * (round5 (d / (k : ℚ)) - d / (k : ℚ)) +
        (N : ℚ) * (round5 ((1 - d) / (N : ℚ)) - (1 - d) / (N : ℚ))|
      ≤ |(k : ℚ) * (round5 (d / (k : ℚ)) - d / (k : ℚ))| +
        |(N : ℚ) * (round5 ((1 - d) / (N : ℚ)) - (1 - d) / (N : ℚ))| := abs_add _ _
    _ ≤ (k : ℚ) / 200000 + (N : ℚ) / 200000 := add_le_add hka hNa
    _ = ((k : ℚ) + (N : ℚ)) / 200000 := by ring

/-! Invariants of the iterative estimator's sweep. -/

/-- All stored rank values are nonnegative. -/
def RanksNonneg (r : Dict ℚ) : Prop := ∀ e ∈ r, 0 ≤ e.2

theorem dlookupD_nonneg (r : Dict ℚ) (h : RanksNonneg r) (p : Page) :
    0 ≤ dlookupD r p 0 := by
  rw [dlookupD]
  cases hl : dlookup p r with
  | none => simp
  | some v => simpa using h _ (dlookup_mem hl)

theorem ranksNonneg_dset (m : Dict ℚ) (p : Page) (v : ℚ) (hm : RanksNonneg m)
    (hv : 0 ≤ v) : RanksNonneg (dset m p v) := by
  intro e he
  rw [dset] at he
  by_cases hp : p ∈ dkeys m
  · rw [if_pos hp] at he
    obtain ⟨e', he', rfl⟩ := List.mem_map.1 he
    by_cases h1 : e'.1 = p
    · simpa [h1] using hv
    · simpa [h1] using hm e' he'
  · rw [if_neg hp] at he
    rcases List.mem_append.1 he with he | he
    · exact hm e he
    · rcases List.mem_singleton.1 he with rfl
      exact hv

theorem linkProbLoop_nonneg (ranks : Dict ℚ) (rank : Page)
    (st : Dict (List Page) × ℚ) (page : Page) (hr : RanksNonneg ranks)
    (h2 : 0 ≤ st.2) : 0 ≤ (linkProbLoop ranks rank st page).2 := by
  have hx : 0 ≤ dlookupD ranks page 0 := dlookupD_nonneg ranks hr page
  unfold linkProbLoop
  split
  · dsimp only
    split <;> dsimp only
    · exact add_nonneg h2 (div_nonneg hx (Nat.cast_nonneg _))
    · exact h2
  · dsimp only
    split <;> dsimp only
    · exact add_nonneg h2 (div_nonneg hx (Nat.cast_nonneg _))
    · exact h2

theorem foldl_linkProbLoop_nonneg (ranks : Dict ℚ) (rank : Page)
    (hr : RanksNonneg ranks) :
    ∀ (L : List Page) (st : Dict (List Page) × ℚ), 0 ≤ st.2 →
      0 ≤ (L.foldl (linkProbLoop ranks rank) st).2 := by
  intro L
  induction L with
  | nil => intro st h; exact h
  | cons a L ih =>
    intro st h
    exact ih _ (linkProbLoop_nonneg ranks rank st a hr h)

theorem sweepStep_snd (damping_factor : ℚ) (num_pages : ℕ)
    (st : Dict (List Page) × Dict ℚ) (rank : Page) :
    (sweepStep damping_factor num_pages st rank).2 =
      dset st.2 rank ((1 - damping_factor) / (num_pages : ℚ) +
        damping_factor * ((dkeys st.1).foldl (linkProbLoop st.2 rank) (st.1, 0)).2) := rfl

theorem foldl_sweepStep_lookup_of_not_mem (d : ℚ) (num_pages : ℕ) :
    ∀ (L : List Page) (st : Dict (List Page) × Dict ℚ) (p : Page), p ∉ L →
      dlookup p (L.foldl (sweepStep d num_pages) st).2 = dlookup p st.2 := by
  intro L
  induction L with
  | nil => intro st p _; rfl
  | cons a L ih =>
    intro st p hp
    rw [List.mem_cons] at hp
    push_neg at hp
    rw [List.foldl_cons, ih _ p hp.2, sweepStep_snd, dlookup_dset_ne _ _ hp.1]

theorem sweep_go_nonneg_lower (d : ℚ) (num_pages : ℕ) (hd0 : 0 ≤ d) (hd1 : d ≤ 1) :
    ∀ (L : List Page) (st : Dict (List Page) × Dict ℚ), L.Nodup →
      RanksNonneg st.2 →
      RanksNonneg (L.foldl (sweepStep d num_pages) st).2 ∧
      ∀ p ∈ L, (1 - d) / (num_pages : ℚ) ≤
        dlookupD (L.foldl (sweepStep d num_pages) st).2 p 0 := by
  intro L
  induction L with
  | nil => exact fun st _ hr => ⟨hr, by simp⟩
  | cons a L ih =>
    intro st hN hr
    rw [List.nodup_cons] at hN
    have h1 : 0 ≤ (1 - d) / (num_pages : ℚ) :=
      div_nonneg (by linarith) (Nat.cast_nonneg _)
    have h2 : 0 ≤ ((dkeys st.1).foldl (linkProbLoop st.2 a) (st.1, 0)).2 :=
      foldl_linkProbLoop_nonneg st.2 a hr _ _ le_rfl
    have hval : 0 ≤ (1 - d) / (num_pages : ℚ) +
        d * ((dkeys st.1).foldl (linkProbLoop st.2 a) (st.1, 0)).2 :=
      add_nonneg h1 (mul_nonneg hd0 h2)
    have hr' : RanksNonneg (sweepStep d num_pages st a).2 := by
      rw [sweepStep_snd]
      exact ranksNonneg_dset _ _ _ hr hval
    rw [List.foldl_cons]
    obtain ⟨hres, hlow⟩ := ih (sweepStep d num_pages st a) hN.2 hr'
    refine ⟨hres, fun p hp => ?_⟩
    rcases List.mem_cons.1 hp with rfl | hp
    · have hkeep : dlookup p (L.foldl (sweepStep d num_pages) (sweepStep d num_pages st p)).2 =
          dlookup p (sweepStep d num_pages st p).2 :=
        foldl_sweepStep_lookup_of_not_mem d num_pages L _ p hN.1
      rw [dlookupD, hkeep, sweepStep_snd, dlookup_dset_self]
      simp only [Option.getD_some]
      have h3 : 0 ≤ d * ((dkeys st.1).foldl (linkProbLoop st.2 p) (st.1, 0)).2 :=
        mul_nonneg hd0 (foldl_linkProbLoop_nonneg st.2 p hr _ _ le_rfl)
      linarith
    · exact hlow p hp

theorem foldl_sweepStep_keys (d : ℚ) (num_pages : ℕ) :
    ∀ (L : List Page) (st : Dict (List Page) × Dict ℚ),
      (∀ r ∈ L, r ∈ dkeys st.2) →
      dkeys (L.foldl (sweepStep d num_pages) st).2 = dkeys st.2 := by
  intro L
  induction L with
  | nil => intro st _; rfl
  | cons a L ih =>
    intro st h
    rw [List.foldl_cons]
    have ha : a ∈ dkeys st.2 := h a (List.mem_cons_self _ _)
    have hkeys : dkeys (sweepStep d num_pages st a).2 = dkeys st.2 := by
      rw [sweepStep_snd]
      exact dkeys_dset_of_mem _ ha
    rw [ih _ (fun r hr => by rw [hkeys]; exact h r (List.mem_cons_of_mem _ hr)), hkeys]

theorem sweep_keys (d : ℚ) (n : ℕ) (st : Dict (List Page) × Dict ℚ) :
    dkeys (sweep d n st).2 = dkeys st.2 :=
  foldl_sweepStep_keys d n (dkeys st.2) st (fun _ hr => hr)

theorem sweep_nonneg_lower (d : ℚ) (n : ℕ) (hd0 : 0 ≤ d) (hd1 : d ≤ 1)
    (st : Dict (List Page) × Dict ℚ) (hN : (dkeys st.2).Nodup)
    (hr : RanksNonneg st.2) :
    RanksNonneg (sweep d n st).2 ∧
      ∀ p ∈ dkeys st.2, (1 - d) / (n : ℚ) ≤ dlookupD (sweep d n st).2 p 0 :=
  sweep_go_nonneg_lower d n hd0 hd1 (dkeys st.2) st hN hr

/-- Every rank dict returned by the iteration loop keeps the key set of the
dict it started from, and (since the precondition holds of the uniform start
and every sweep re-establishes it) every returned value is at least
`(1 - damping) / num_pages`. -/
theorem iterateLoop_ok_inv (d : ℚ) (num_pages : ℕ) (hd0 : 0 ≤ d) (hd1 : d ≤ 1) :
    ∀ (fuel : ℕ) (cc : Dict (List Page)) (old ranks res : Dict ℚ),
      iterateLoop d num_pages fuel cc old ranks = some (.ok res) →
      (dkeys ranks).Nodup →
      RanksNonneg ranks →
      (∀ p ∈ dkeys ranks, (1 - d) / (num_pages : ℚ) ≤ dlookupD ranks p 0) →
      dkeys res = dkeys ranks ∧
        ∀ p ∈ dkeys res, (1 - d) / (num_pages : ℚ) ≤ dlookupD res p 0 := by
  intro fuel
  induction fuel with
  | zero =>
    intro cc old ranks res h
    exact absurd h (by simp [iterateLoop])
  | succ fuel ih =>
    intro cc old ranks res h hN hr hb
    rw [iterateLoop] at h
    cases hic : is_coverged old ranks with
    | none =>
      rw [hic] at h
      simp at h
    | some b =>
      cases b with
      | true =>
        rw [hic] at h
        simp only [Option.some.injEq, Except.ok.injEq] at h
        subst h
        exact ⟨rfl, hb⟩
      | false =>
        rw [hic] at h
        dsimp only at h
        obtain ⟨hr', hlow'⟩ :=
          sweep_nonneg_lower d num_pages hd0 hd1 (cc, ranks) hN hr
        have hkeys : dkeys (sweep d num_pages (cc, ranks)).2 = dkeys ranks :=
          sweep_keys d num_pages (cc, ranks)
        have hN' : (dkeys (sweep d num_pages (cc, ranks)).2).Nodup := by
          rw [hkeys]; exact hN
        have hb' : ∀ p ∈ dkeys (sweep d num_pages (cc, ranks)).2,
            (1 - d) / (num_pages : ℚ) ≤ dlookupD (sweep d num_pages (cc, ranks)).2 p 0 := by
          rw [hkeys]; exact hlow'
        obtain ⟨hk, hl⟩ := ih _ _ _ _ h hN' hr' hb'
        exact ⟨hk.trans hkeys, hl⟩

/-! The sampling estimator's output dict. -/

theorem except_bind_ok {ε α β : Type} (a : α) (f : α → Except ε β) :
    (Except.ok a : Except ε α) >>= f = f a := rfl

theorem except_bind_error {ε α β : Type} (e : ε) (f : α → Except ε β) :
    (Except.error e : Except ε α) >>= f = .error e := rfl

theorem sampleSteps_length (corpus : Dict (List Page)) (d : ℚ) (u : ℕ → ℚ) :
    ∀ (steps i : ℕ) (page : Page) (l : List Page),
      sampleSteps corpus d u steps i page = .ok l → l.length = steps := by
  intro steps
  induction steps with
  | zero =>
    intro i page l h
    rw [sampleSteps] at h
    simp only [Except.ok.injEq] at h
    subst h
    rfl
  | succ steps ih =>
    intro i page l h
    rw [sampleSteps] at h
    cases ht : transition_model corpus page d with
    | error e =>
      rw [ht, except_bind_error] at h
      exact absurd h (by simp)
    | ok model =>
      rw [ht, except_bind_ok] at h
      dsimp only at h
      cases hs : sampleSteps corpus d u steps (i + 1)
          (choicesPick (u i * dictSum model) 0 model) with
      | error e =>
        rw [hs, except_bind_error] at h
        exact absurd h (by simp)
      | ok rest =>
        rw [hs, except_bind_ok] at h
        simp only [Except.ok.injEq] at h
        subst h
        simp [ih (i + 1) _ rest hs]

theorem sample_pagerank_spec (corpus : Dict (List Page)) (d : ℚ) (n : ℕ)
    (u : ℕ → ℚ) (ranks : Dict ℚ)
    (h : sample_pagerank corpus d n u = .ok ranks) :
    ∃ samples : List Page, samples.length = n ∧ samples ≠ [] ∧
      ranks = samples.foldl
        (fun m p => dset m p ((samples.count p : ℚ) / (n : ℚ))) [] := by
  rw [sample_pagerank] at h
  by_cases h0 : (dkeys corpus).length = 0
  · rw [if_pos h0] at h
    exact absurd h (by simp)
  · rw [if_neg h0] at h
    have h' : (sampleSteps corpus d u (n - 1) 1
        ((dkeys corpus).getD (⌊u 0 * ((dkeys corpus).length : ℚ)⌋).toNat "") >>=
        fun rest =>
          if n = 0 then (Except.error PyErr.zeroDivisionError : Except PyErr (Dict ℚ))
          else Except.ok
            ((((dkeys corpus).getD (⌊u 0 * ((dkeys corpus).length : ℚ)⌋).toNat "") :: rest).foldl
              (fun m p => dset m p
                ((((((dkeys corpus).getD (⌊u 0 * ((dkeys corpus).length : ℚ)⌋).toNat "") :: rest).count p : ℕ) : ℚ) / (n : ℚ)))
              [])) = Except.ok ranks := h
    clear h
    cases hs : sampleSteps corpus d u (n - 1) 1
        ((dkeys corpus).getD (⌊u 0 * ((dkeys corpus).length : ℚ)⌋).toNat "") with
    | error e =>
      rw [hs, except_bind_error] at h'
      exact absurd h' (by simp)
    | ok rest =>
      rw [hs, except_bind_ok] at h'
      by_cases hn : n = 0
      · rw [if_pos hn] at h'
        exact absurd h' (by simp)
      · rw [if_neg hn] at h'
        simp only [Except.ok.injEq] at h'
        refine ⟨_, ?_, by simp, h'.symm⟩
        have hlen := sampleSteps_length corpus d u (n - 1) 1 _ rest hs
        simp only [List.length_cons, hlen]
        omega

theorem sum_map_natCast (l : List Page) (f : Page → ℕ) :
    (l.map (fun q => ((f q : ℕ) : ℚ))).sum = (((l.map f).sum : ℕ) : ℚ) := by
  induction l with
  | nil => simp
  | cons a l ih => simp [ih]

/-- Key facts about the sampling output dict built from a walk of length `n`:
keys are exactly the visited pages without duplicates, each value is
`count/n`, and the values sum to exactly `1`. -/
theorem ranks_fold_spec (samples : List Page) (n : ℕ) (hn : 1 ≤ n)
    (hlen : samples.length = n) :
    (dkeys (samples.foldl
        (fun m p => dset m p ((samples.count p : ℚ) / (n : ℚ))) [])).Nodup ∧
    (∀ q, q ∈ dkeys (samples.foldl
        (fun m p => dset m p ((samples.count p : ℚ) / (n : ℚ))) []) ↔ q ∈ samples) ∧
    (∀ e ∈ samples.foldl
        (fun m p => dset m p ((samples.count p : ℚ) / (n : ℚ))) [],
      e.2 = (samples.count e.1 : ℚ) / (n : ℚ)) ∧
    dictSum (samples.foldl
        (fun m p => dset m p ((samples.count p : ℚ) / (n : ℚ))) []) = 1 := by
  have hnodup : (dkeys (samples.foldl
      (fun m p => dset m p ((samples.count p : ℚ) / (n : ℚ))) [])).Nodup :=
    nodup_dkeys_foldl_dset _ samples [] (by simp)
  have hmem : ∀ q, q ∈ dkeys (samples.foldl
      (fun m p => dset m p ((samples.count p : ℚ) / (n : ℚ))) []) ↔ q ∈ samples := by
    intro q
    rw [mem_dkeys_foldl_dset]
    simp
  have hent : ∀ e ∈ samples.foldl
      (fun m p => dset m p ((samples.count p : ℚ) / (n : ℚ))) [],
      e.2 = (samples.count e.1 : ℚ) / (n : ℚ) :=
    entries_foldl_dset _ samples [] (by simp)
  refine ⟨hnodup, hmem, hent, ?_⟩
  set R := samples.foldl
      (fun m p => dset m p ((samples.count p : ℚ) / (n : ℚ))) [] with hR
  have hlook : ∀ q ∈ dkeys R, dlookupD R q 0 = (samples.count q : ℚ) / (n : ℚ) := by
    intro q hq
    rw [dlookupD, hR, dlookup_foldl_dset, if_pos ((hmem q).1 hq)]
    rfl
  rw [dictSum_eq_sum_dkeys R hnodup]
  rw [List.map_congr_left (fun q hq => hlook q hq)]
  have hperm : (dkeys R).Perm samples.dedup := by
    refine List.perm_of_nodup_nodup_toFinset_eq hnodup samples.nodup_dedup ?_
    ext a
    simp only [List.mem_toFinset, List.mem_dedup]
    exact hmem a
  have hcast : (dkeys R).map (fun q => ((samples.count q : ℕ) : ℚ) / (n : ℚ)) =
      (dkeys R).map (fun q => ((samples.count q : ℕ) : ℚ) * ((n : ℚ))⁻¹) := by
    refine List.map_congr_left fun q _ => ?_
    rw [div_eq_mul_inv]
  rw [hcast, List.sum_map_mul_right]
  have hsum : ((dkeys R).map (fun q => samples.count q)).sum = n := by
    have hpm := (hperm.map (fun q => samples.count q)).sum_eq
    rw [hpm, List.sum_map_count_dedup_eq_length, hlen]
  rw [sum_map_natCast (dkeys R) (fun q => samples.count q), hsum]
  have hn0 : (n : ℚ) ≠ 0 := Nat.cast_ne_zero.2 (by omega)
  field_simp

/-! The convergence check, characterized. -/

theorem convergedLoop_iff (old_ranks new_ranks : Dict ℚ) :
    ∀ K : List Page, (∀ p ∈ K, p ∈ dkeys old_ranks ∧ p ∈ dkeys new_ranks) →
      (convergedLoop old_ranks new_ranks K = some true ↔
        ∀ p ∈ K, dlookupD new_ranks p 0 - dlookupD old_ranks p 0 ≤ 1/1000) := by
  intro K
  induction K with
  | nil => simp [convergedLoop]
  | cons a K ih =>
    intro hk
    obtain ⟨hao, han⟩ := hk a (List.mem_cons_self _ _)
    obtain ⟨ov, hov⟩ := Option.isSome_iff_exists.1 ((dlookup_isSome_iff_mem _ _).2 hao)
    obtain ⟨nv, hnv⟩ := Option.isSome_iff_exists.1 ((dlookup_isSome_iff_mem _ _).2 han)
    rw [convergedLoop, hov, hnv]
    dsimp only
    have hda : dlookupD new_ranks a 0 - dlookupD old_ranks a 0 = nv - ov := by
      rw [dlookupD, dlookupD, hov, hnv]
      rfl
    by_cases hgt : nv - ov > 1/1000
    · rw [if_pos hgt]
      constructor
      · intro hc
        exact absurd hc (by simp)
      · intro hall
        exfalso
        have ha := hall a (List.mem_cons_self _ _)
        rw [hda] at ha
        exact absurd ha (not_le.2 hgt)
    · rw [if_neg hgt]
      rw [ih (fun p hp => hk p (List.mem_cons_of_mem _ hp))]
      constructor
      · intro hall p hp
        rcases List.mem_cons.1 hp with rfl | hp
        · rw [hda]; linarith [not_lt.1 hgt]
        · exact hall p hp
      · intro hall p hp
        exact hall p (List.mem_cons_of_mem _ hp)

theorem is_coverged_iff (old_ranks new_ranks : Dict ℚ) (ho : old_ranks ≠ [])
    (hn : new_ranks ≠ []) (hk : ∀ p ∈ dkeys old_ranks, p ∈ dkeys new_ranks) :
    is_coverged old_ranks new_ranks = some true ↔
      ∀ p ∈ dkeys old_ranks, dlookupD new_ranks p 0 - dlookupD old_ranks p 0 ≤ 1/1000 := by
  rw [is_coverged, if_neg (by simp [ho, hn])]
  exact convergedLoop_iff old_ranks new_ranks (dkeys old_ranks) (fun p hp => ⟨hp, hk p hp⟩)

/-! Frame reasoning for the heap embedding. -/

theorem getD_append_lt {α : Type} (l : List α) (x : α) (i : ℕ) (h : i < l.length)
    (d : α) : (l ++ [x]).getD i d = l.getD i d := by
  rw [List.getD, List.getD, List.get?_eq_getElem?, List.get?_eq_getElem?,
    List.getElem?_append_left h]

theorem getD_set_ne {α : Type} (l : List α) (a b : ℕ) (t : α) (h : b ≠ a) (d : α) :
    (l.set a t).getD b d = l.getD b d := by
  rw [List.getD, List.getD, List.get?_eq_getElem?, List.get?_eq_getElem?,
    List.getElem?_set_ne (fun hc => h hc.symm)]

/-- The heap evolutions performed by the PageRank functions: lengths only
grow, dict cells other than the private copy `cpy` are untouched, and set
cells that already existed are untouched. -/
def Evolves (cpy : ℕ) (h h' : Heap) : Prop :=
  h.dicts.length ≤ h'.dicts.length ∧ h.sets.length ≤ h'.sets.length ∧
  (∀ b, b < h.dicts.length → b ≠ cpy → h'.getDict b = h.getDict b) ∧
  (∀ s, s < h.sets.length → h'.getSet s = h.getSet s)

theorem evolves_refl (cpy : ℕ) (h : Heap) : Evolves cpy h h :=
  ⟨le_rfl, le_rfl, fun _ _ _ => rfl, fun _ _ => rfl⟩

theorem evolves_trans {cpy : ℕ} {h1 h2 h3 : Heap} (e1 : Evolves cpy h1 h2)
    (e2 : Evolves cpy h2 h3) : Evolves cpy h1 h3 := by
  obtain ⟨d12, s12, gd12, gs12⟩ := e1
  obtain ⟨d23, s23, gd23, gs23⟩ := e2
  exact ⟨d12.trans d23, s12.trans s23,
    fun b hb hbc => (gd23 b (lt_of_lt_of_le hb d12) hbc).trans (gd12 b hb hbc),
    fun s hs => (gs23 s (lt_of_lt_of_le hs s12)).trans (gs12 s hs)⟩

theorem evolves_allocSet (cpy : ℕ) (h : Heap) (s : List Page) :
    Evolves cpy h (h.allocSet s).1 := by
  refine ⟨le_rfl, by simp [Heap.allocSet], fun b _ _ => rfl, fun i hi => ?_⟩
  show (h.sets ++ [s]).getD i [] = h.sets.getD i []
  exact getD_append_lt h.sets s i hi []

theorem evolves_dictAssign (cpy : ℕ) (h : Heap) (p : Page) (r : ℕ) :
    Evolves cpy h (h.dictAssign cpy p r) := by
  refine ⟨by simp [Heap.dictAssign], le_rfl, fun b hb hbc => ?_, fun _ _ => rfl⟩
  show (h.dicts.set cpy (dset (h.getDict cpy) p r)).getD b [] = h.dicts.getD b []
  exact getD_set_ne h.dicts cpy b _ hbc []

theorem evolves_substituteH (cpy : ℕ) (h : Heap) (page : Page) :
    Evolves cpy h (substituteH h cpy page) := by
  rw [substituteH]
  cases hl : dlookup page (h.getDict cpy) with
  | none => exact evolves_refl cpy h
  | some sref =>
    dsimp only
    by_cases h0 : (h.getSet sref).length = 0
    · rw [if_pos h0]
      exact evolves_trans (evolves_allocSet cpy h _) (evolves_dictAssign cpy _ _ _)
    · rw [if_neg h0]
      exact evolves_refl cpy h

theorem evolves_linkProbLoopH (ranks : Dict ℚ) (rank : Page) (cpy : ℕ)
    (st : Heap × ℚ) (page : Page) :
    Evolves cpy st.1 (linkProbLoopH ranks rank cpy st page).1 := by
  rw [linkProbLoopH]
  split <;> exact evolves_substituteH cpy st.1 page

theorem evolves_foldl_linkProbLoopH (ranks : Dict ℚ) (rank : Page) (cpy : ℕ) :
    ∀ (L : List Page) (st : Heap × ℚ),
      Evolves cpy st.1 ((L.foldl (linkProbLoopH ranks rank cpy) st).1) := by
  intro L
  induction L with
  | nil => intro st; exact evolves_refl cpy st.1
  | cons a L ih =>
    intro st
    exact evolves_trans (evolves_linkProbLoopH ranks rank cpy st a) (ih _)

theorem evolves_sweepH (d : ℚ) (n : ℕ) (cpy : ℕ) :
    ∀ (L : List Page) (st : Heap × Dict ℚ),
      Evolves cpy st.1 ((L.foldl
        (fun st rank =>
          let random_prob := (1 - d) / (n : ℚ)
          let inner := (dkeys (st.1.getDict cpy)).foldl (linkProbLoopH st.2 rank cpy) (st.1, 0)
          (inner.1, dset st.2 rank (random_prob + d * inner.2))) st).1) := by
  intro L
  induction L with
  | nil => intro st; exact evolves_refl cpy st.1
  | cons a L ih =>
    intro st
    refine evolves_trans ?_ (ih _)
    exact evolves_foldl_linkProbLoopH st.2 a cpy (dkeys (st.1.getDict cpy)) (st.1, 0)

theorem evolves_sweepH' (d : ℚ) (n : ℕ) (cpy : ℕ) (st : Heap × Dict ℚ) :
    Evolves cpy st.1 (sweepH d n cpy st).1 :=
  evolves_sweepH d n cpy (dkeys st.2) st

theorem evolves_iterateLoopH (d : ℚ) (n : ℕ) (cpy : ℕ) :
    ∀ (fuel : ℕ) (h : Heap) (old_ranks ranks : Dict ℚ),
      Evolves cpy h (iterateLoopH d n cpy fuel h old_ranks ranks).1 := by
  intro fuel
  induction fuel with
  | zero => intro h old_ranks ranks; exact evolves_refl cpy h
  | succ fuel ih =>
    intro h old_ranks ranks
    rw [iterateLoopH]
    cases is_coverged old_ranks ranks with
    | none => exact evolves_refl cpy h
    | some b =>
      cases b with
      | true => exact evolves_refl cpy h
      | false =>
        dsimp only
        exact evolves_trans (evolves_sweepH' d n cpy (h, ranks)) (ih _ _ _)

/-- After the shallow `corpus.copy()` at address `cpy = h.dicts.length`, any
later evolution that avoids other dict cells leaves the caller's dict cell
and all pre-existing set cells intact. -/
theorem frame_after_copy (h : Heap) (corpusRef : ℕ) (h' : Heap)
    (hc : corpusRef < h.dicts.length)
    (he : Evolves h.dicts.length (h.allocDict (h.getDict corpusRef)).1 h') :
    h'.getDict corpusRef = h.getDict corpusRef ∧
      ∀ s, s < h.sets.length → h'.getSet s = h.getSet s := by
  obtain ⟨_, _, gd, gs⟩ := he
  constructor
  · have h1 : (h.allocDict (h.getDict corpusRef)).1.getDict corpusRef =
        h.getDict corpusRef := by
      show (h.dicts ++ [h.getDict corpusRef]).getD corpusRef [] = h.dicts.getD corpusRef []
      exact getD_append_lt h.dicts _ corpusRef hc []
    have h2 := gd corpusRef (by simpa [Heap.allocDict] using Nat.lt_succ_of_lt hc)
      (Nat.ne_of_lt hc)
    exact h2.trans h1
  · intro s hs
    exact gs s hs

/-! Concrete corpora and runs used by the claim checks. -/

/-- A three-page corpus `{s: {a}, a: {b}, b: {a}}`: `s` has no in-links. -/
def G0 : Dict (List Page) := [("s", ["a"]), ("a", ["b"]), ("b", ["a"])]

/-- A three-page corpus `{a: {b, c}, b: {c}, c: {a}}`. -/
def G1 : Dict (List Page) := [("a", ["b", "c"]), ("b", ["c"]), ("c", ["a"])]

/-- The two-page cycle `{a: {b}, b: {a}}`. -/
def G2 : Dict (List Page) := [("a", ["b"]), ("b", ["a"])]

/-- A thirty-page corpus: `p0` links to `p1` and every other page links to
`p0`. -/
def G30 : Dict (List Page) :=
  [("p0", ["p1"]), ("p1", ["p0"]), ("p2", ["p0"]), ("p3", ["p0"]), ("p4", ["p0"]),
   ("p5", ["p0"]), ("p6", ["p0"]), ("p7", ["p0"]), ("p8", ["p0"]), ("p9", ["p0"]),
   ("p10", ["p0"]), ("p11", ["p0"]), ("p12", ["p0"]), ("p13", ["p0"]), ("p14", ["p0"]),
   ("p15", ["p0"]), ("p16", ["p0"]), ("p17", ["p0"]), ("p18", ["p0"]), ("p19", ["p0"]),
   ("p20", ["p0"]), ("p21", ["p0"]), ("p22", ["p0"]), ("p23", ["p0"]), ("p24", ["p0"]),
   ("p25", ["p0"]), ("p26", ["p0"]), ("p27", ["p0"]), ("p28", ["p0"]), ("p29", ["p0"])]

/-- The uniform starting snapshot on `G0`'s pages. -/
def uniform3 : Dict ℚ := [("s", 1/3), ("a", 1/3), ("b", 1/3)]

/-- The uniform starting snapshot on `G1`'s pages. -/
def uniformG1 : Dict ℚ := [("a", 1/3), ("b", 1/3), ("c", 1/3)]

/-- The rank dict `iterate_pagerank` returns on `G0` with damping `0.999`:
the single in-place sweep it performs before the check passes. -/
def R1 : Dict ℚ := [("s", 1/3000), ("a", 1000999/3000000), ("b", 1000998001/3000000000)]

/-- The all-zero random stream. -/
def uzero : ℕ → ℚ := fun _ => 0

/-! The claims. -/

/-- C1: the spec (§4.3 step 2, §9) requires a synchronous sweep that reads
only the previous iteration's snapshot, but the code updates `ranks` in place
(line 158) while reading `ranks[page]` (line 156): on the corpus
`{a: {b, c}, b: {c}, c: {a}}` with damping `0.85`, starting from the uniform
snapshot, the first code sweep yields `rank(c) = 851/2400 ≈ 0.3546` — computed
from `rank(b)` already rewritten in the same sweep — while the synchronous
sweep of the spec yields `19/40 = 0.475`. -/
theorem C1_inplace_sweep_not_synchronous :
    dlookupD (sweep (17/20) 3 (G1, uniformG1)).2 "c" 0 = 851/2400 ∧
    dlookupD (syncSweepSpec G1 (17/20) uniformG1) "c" 0 = 19/40 ∧
    (sweep (17/20) 3 (G1, uniformG1)).2 ≠ syncSweepSpec G1 (17/20) uniformG1 := by
  decide!

/-- C2 (counterexample): on `G0` with damping `0.999` the estimator stops
after one sweep — `is_coverged` accepts the step from the uniform snapshot to
`R1` — although page `s` dropped from `1/3` to `1/3000`, an absolute change of
almost `1/3`, far above the threshold `0.001`. -/
theorem C2_decrease_ignored :
    iterate_pagerank 5 G0 (999/1000) = some (.ok R1) ∧
    is_coverged uniform3 R1 = some true ∧
    (1/3 : ℚ) - dlookupD R1 "s" 0 > 1/1000 := by
  decide!

/-- C9 (counterexample): on `G0` with damping `0.999` (a damping factor below
`1`) the iterative estimator returns ranks summing to about `0.6677`, so the
output sum is not within `1e-3` of `1.0`. -/
theorem C9_sum_departs_from_one :
    iterate_pagerank 5 G0 (999/1000) = some (.ok R1) ∧
    |dictSum R1 - 1| > 1/1000 := by
  decide!

/-- C2 (amended): on non-empty rank dicts whose keys all appear in the new
dict, `is_coverged` returns `True` exactly when no page's rank has grown by
more than `0.001` over the previous snapshot; rank decreases of any size do
not prevent termination. -/
theorem C2_check_only_bounds_increases (old_ranks new_ranks : Dict ℚ)
    (ho : old_ranks ≠ []) (hn : new_ranks ≠ [])
    (hk : ∀ p ∈ dkeys old_ranks, p ∈ dkeys new_ranks) :
    is_coverged old_ranks new_ranks = some true ↔
      ∀ p ∈ dkeys old_ranks,
        dlookupD new_ranks p 0 - dlookupD old_ranks p 0 ≤ 1/1000 :=
  is_coverged_iff old_ranks new_ranks ho hn hk

/-- Witness for C2: the characterization applied to the one-page dicts
`{x: 1/2}` and `{x: 499/1000}` — a decrease of `1/1000`, so the check holds. -/
theorem C2_check_only_bounds_increases_witness :
    ([(("x" : Page), (1:ℚ)/2)] ≠ ([] : Dict ℚ)) ∧
    ([(("x" : Page), (499:ℚ)/1000)] ≠ ([] : Dict ℚ)) ∧
    (is_coverged [(("x" : Page), (1:ℚ)/2)] [(("x" : Page), (499:ℚ)/1000)] = some true ↔
      ∀ p ∈ dkeys [(("x" : Page), (1:ℚ)/2)],
        dlookupD [(("x" : Page), (499:ℚ)/1000)] p 0 -
          dlookupD [(("x" : Page), (1:ℚ)/2)] p 0 ≤ 1/1000) :=
  ⟨by decide!, by decide!,
    C2_check_only_bounds_increases [("x", 1/2)] [("x", 499/1000)]
      (by decide!) (by decide!) (by decide!)⟩

/-- C3 (counterexample): on the two-page corpus `{a: {b}, b: {a}}` a one-step
sampling run returns the dict `{a: 1.0}` only: page `b` belongs to the corpus
but is absent from the output rather than present with rank `0.0`. -/
theorem C3_unsampled_pages_absent :
    sample_pagerank G2 (1/2) 1 uzero = .ok [("a", 1)] ∧
    "b" ∈ dkeys G2 ∧ "b" ∉ dkeys [(("a" : Page), (1:ℚ))] := by
  decide!

/-- C3 (amended): the sampling estimator's output contains exactly the pages
visited by the walk, without duplicates, each with rank at least `1/n` (so
never a zero-filled entry); for `n = 1` the output is a single page with rank
`1.0`, all other corpus pages being absent. -/
theorem C3_output_keys_are_visited_pages (corpus : Dict (List Page)) (d : ℚ)
    (n : ℕ) (u : ℕ → ℚ) (ranks : Dict ℚ) (hn : 1 ≤ n)
    (h : sample_pagerank corpus d n u = .ok ranks) :
    (dkeys ranks).Nodup ∧ (∀ e ∈ ranks, 1 / (n : ℚ) ≤ e.2) ∧
      (n = 1 → ∃ p, ranks = [(p, 1)]) := by
  obtain ⟨samples, hlen, hne, hranks⟩ := sample_pagerank_spec corpus d n u ranks h
  obtain ⟨hnodup, hmem, hent, _⟩ := ranks_fold_spec samples n hn hlen
  subst hranks
  refine ⟨hnodup, ?_, ?_⟩
  · intro e he
    rw [hent e he]
    have hm : e.1 ∈ samples := by
      rw [← hmem]
      exact List.mem_map_of_mem _ he
    have hc : 1 ≤ samples.count e.1 := List.count_pos_iff.2 hm
    have hn0 : (0 : ℚ) < (n : ℚ) := by
      have : 0 < n := hn
      exact_mod_cast this
    rw [div_le_div_iff_of_pos_right hn0]
    exact_mod_cast hc
  · intro h1
    subst h1
    obtain ⟨p, hp⟩ := List.length_eq_one.1 hlen
    subst hp
    refine ⟨p, ?_⟩
    show dset [] p ((List.count p [p] : ℚ) / ((1:ℕ) : ℚ)) = [(p, 1)]
    have hc : (List.count p [p] : ℚ) / ((1:ℕ) : ℚ) = 1 := by
      rw [List.count_singleton]
      norm_num
    rw [hc, dset]
    simp

/-- Witness for C3's amended claim: a one-step run on `G2`. -/
theorem C3_output_keys_are_visited_pages_witness :
    1 ≤ 1 ∧ sample_pagerank G2 (1/2) 1 uzero = .ok [("a", 1)] ∧
    ((dkeys [(("a" : Page), (1:ℚ))]).Nodup ∧
      (∀ e ∈ [(("a" : Page), (1:ℚ))], 1 / ((1:ℕ) : ℚ) ≤ e.2) ∧
      (1 = 1 → ∃ p, [(("a" : Page), (1:ℚ))] = [(p, 1)])) :=
  ⟨le_rfl, by decide!,
    C3_output_keys_are_visited_pages G2 (1/2) 1 uzero [("a", 1)] le_rfl (by decide!)⟩

/-- C4 (counterexample): on the thirty-page corpus `G30` with damping
`0.969853`, `transition_model` gives page `p1` the value
`round(d/1, 5) + round((1-d)/30, 5) = 0.97085`, which differs from the exact
`d/1 + (1-d)/30 = 0.9708579`, and the whole distribution sums to `0.99985`,
which is farther than `1e-4` from `1.0`. -/
theorem C4_rounding_breaks_exact_values :
    (transition_model G30 "p0" (969853/1000000)).map (fun m => dlookupD m "p1" 0) =
      .ok (19417/20000) ∧
    ((19417 : ℚ)/20000 ≠ 969853/1000000 / 1 + (1 - 969853/1000000) / 30) ∧
    (transition_model G30 "p0" (969853/1000000)).map dictSum = .ok (19997/20000) ∧
    |(19997 : ℚ)/20000 - 1| > 1/10000 := by
  decide!

/-- C4 (amended): for a well-formed corpus (duplicate-free keys, neighbor
sets within the key set and duplicate-free), any page of the corpus and any
damping factor, `transition_model` succeeds; the returned distribution's key
list is exactly the corpus key list; each page of the effective outbound set
(the full self-inclusive page set when the page has no outbound links, of
size `k`) receives `round(damping/k, 5) + round((1-damping)/N, 5)` and every
other page `round((1-damping)/N, 5)`; and the values sum to `1.0` within the
accumulated rounding error `(k + N)/200000` — within `1e-4` only when
`k + N ≤ 20`. -/
theorem C4_transition_model_rounded (corpus : Dict (List Page)) (page : Page)
    (d : ℚ) (links0 : List Page) (hN : (dkeys corpus).Nodup)
    (hl : dlookup page corpus = some links0)
    (hsub : ∀ l ∈ links0, l ∈ dkeys corpus) (hld : links0.Nodup) :
    ∃ model, transition_model corpus page d = Except.ok model ∧
      dkeys model = dkeys corpus ∧
      (∀ q ∈ dkeys corpus, dlookup q model =
        some ((if q ∈ effectiveLinks corpus links0 then
                round5 (d / ((effectiveLinks corpus links0).length : ℚ)) else 0)
              + round5 ((1 - d) / ((dkeys corpus).length : ℚ)))) ∧
      |dictSum model - 1| ≤
        (((effectiveLinks corpus links0).length : ℚ) +
          ((dkeys corpus).length : ℚ)) / 200000 := by
  obtain ⟨model, hok, hkeys, hvals⟩ :=
    transition_model_spec corpus page d links0 hN hl hsub
  refine ⟨model, hok, hkeys, hvals, ?_⟩
  have hsub' : ∀ l ∈ effectiveLinks corpus links0, l ∈ dkeys corpus := by
    intro l hl'
    rw [effectiveLinks] at hl'
    by_cases h0 : links0.length = 0
    · rwa [if_pos h0] at hl'
    · rw [if_neg h0] at hl'
      exact hsub l hl'
  have hNm : (dkeys model).Nodup := by rw [hkeys]; exact hN
  rw [dictSum_eq_sum_dkeys model hNm, hkeys]
  have hmap : (dkeys corpus).map (fun q => dlookupD model q 0) =
      (dkeys corpus).map (fun q =>
        (if q ∈ effectiveLinks corpus links0 then
          round5 (d / ((effectiveLinks corpus links0).length : ℚ)) else 0)
        + round5 ((1 - d) / ((dkeys corpus).length : ℚ))) := by
    refine List.map_congr_left fun q hq => ?_
    rw [dlookupD, hvals q hq]
    rfl
  rw [hmap, List.sum_map_add,
    sum_map_ite_mem (dkeys corpus) (effectiveLinks corpus links0) _ hN
      (effectiveLinks_nodup corpus links0 hN hld) hsub',
    sum_map_const_rat]
  exact rounded_sum_close d (effectiveLinks corpus links0).length
    (dkeys corpus).length (effectiveLinks_pos corpus links0 hl)
    (List.length_pos.2 (List.ne_nil_of_mem
      ((dlookup_isSome_iff_mem corpus page).1 (by rw [hl]; rfl))))

/-- Witness for C4's amended claim: `G2` at page `a` with damping `1/2`. -/
theorem C4_transition_model_rounded_witness :
    ((dkeys G2).Nodup ∧ dlookup "a" G2 = some ["b"] ∧
      (∀ l ∈ ["b"], l ∈ dkeys G2) ∧ (["b"] : List Page).Nodup) ∧
    (∃ model, transition_model G2 "a" (1/2) = Except.ok model ∧
      dkeys model = dkeys G2 ∧
      (∀ q ∈ dkeys G2, dlookup q model =
        some ((if q ∈ effectiveLinks G2 ["b"] then
                round5 ((1/2) / ((effectiveLinks G2 ["b"]).length : ℚ)) else 0)
              + round5 ((1 - 1/2) / ((dkeys G2).length : ℚ)))) ∧
      |dictSum model - 1| ≤
        (((effectiveLinks G2 ["b"]).length : ℚ) + ((dkeys G2).length : ℚ)) / 200000) :=
  ⟨⟨by decide!, by decide!, by decide!, by decide!⟩,
    C4_transition_model_rounded G2 "a" (1/2) ["b"] (by decide!) (by decide!)
      (by decide!) (by decide!)⟩

/-- C6: on the empty corpus both estimators fail before any rank is computed,
for every damping factor, sample count, random stream and fuel — including
fuel `0`, showing the iterative failure precedes the loop.  `sample_pagerank`
models `random.choice([])` raising `IndexError` (line 95) and
`iterate_pagerank` models `1 / num_pages` raising `ZeroDivisionError`
(line 134), the failure §7 of the spec labels the InvalidGraph error. -/
theorem C6_empty_graph_rejected (d : ℚ) (n : ℕ) (u : ℕ → ℚ) (fuel : ℕ) :
    sample_pagerank [] d n u = .error .indexError ∧
    iterate_pagerank fuel [] d = some (.error .zeroDivisionError) :=
  ⟨rfl, rfl⟩

/-- C8: whenever the sampling estimator returns a rank dict (any non-empty
corpus, damping factor, `n ≥ 1` and random stream), its values sum to exactly
`1` — in particular within `1e-9` — and every value is an integer multiple of
`1/n`. -/
theorem C8_sample_sums_to_one (corpus : Dict (List Page)) (d : ℚ) (n : ℕ)
    (u : ℕ → ℚ) (ranks : Dict ℚ) (hn : 1 ≤ n)
    (h : sample_pagerank corpus d n u = .ok ranks) :
    dictSum ranks = 1 ∧ |dictSum ranks - 1| ≤ 1/1000000000 ∧
      ∀ e ∈ ranks, ∃ k : ℕ, e.2 = (k : ℚ) / (n : ℚ) := by
  obtain ⟨samples, hlen, _, hranks⟩ := sample_pagerank_spec corpus d n u ranks h
  obtain ⟨_, _, hent, hsum⟩ := ranks_fold_spec samples n hn hlen
  subst hranks
  exact ⟨hsum, by rw [hsum]; norm_num,
    fun e he => ⟨samples.count e.1, hent e he⟩⟩

/-- Witness for C8: a three-step sampling run on `G2`. -/
theorem C8_sample_sums_to_one_witness :
    1 ≤ 3 ∧ sample_pagerank G2 (1/2) 3 uzero = .ok [("a", 1)] ∧
    (dictSum [(("a" : Page), (1:ℚ))] = 1 ∧
      |dictSum [(("a" : Page), (1:ℚ))] - 1| ≤ 1/1000000000 ∧
      ∀ e ∈ [(("a" : Page), (1:ℚ))], ∃ k : ℕ, e.2 = (k : ℚ) / ((3:ℕ) : ℚ)) :=
  ⟨by norm_num, by decide!,
    C8_sample_sums_to_one G2 (1/2) 3 uzero [("a", 1)] (by norm_num) (by decide!)⟩

/-- C9 (amended): the iterative estimator is deterministic — in `main`'s run
sequence its result does not depend on the random stream that the sampling
estimator consumes; it is a function of the corpus, the damping factor and
the fuel bound alone.  (The original claim's sum-within-`1e-3` clause fails:
see the counterexample.) -/
theorem C9_iterate_deterministic (corpus : Dict (List Page)) (d : ℚ)
    (n fuel : ℕ) (u1 u2 : ℕ → ℚ) :
    (runBoth corpus d n fuel u1).2 = (runBoth corpus d n fuel u2).2 := rfl

/-- C10: the loop always performs at least one sweep, because the convergence
check returns `False` whenever the previous snapshot is empty (line 109), and
on a well-formed non-empty corpus with damping in `[0, 1)` every rank in a
returned mapping is at least `(1-damping)/N`, which is strictly positive. -/
theorem C10_first_sweep_and_positive_ranks (corpus : Dict (List Page)) (d : ℚ)
    (fuel : ℕ) (res : Dict ℚ) (hN : (dkeys corpus).Nodup)
    (hne : dkeys corpus ≠ []) (hd0 : 0 ≤ d) (hd1 : d < 1)
    (h : iterate_pagerank fuel corpus d = some (.ok res)) :
    (∀ r : Dict ℚ, is_coverged [] r = some false) ∧
    dkeys res = dkeys corpus ∧
    0 < (1 - d) / ((dkeys corpus).length : ℚ) ∧
    ∀ p ∈ dkeys res, (1 - d) / ((dkeys corpus).length : ℚ) ≤ dlookupD res p 0 := by
  have hlen : (dkeys corpus).length ≠ 0 := fun hc => hne (List.length_eq_zero.1 hc)
  have hpos : (0 : ℚ) < ((dkeys corpus).length : ℚ) := by
    exact_mod_cast Nat.pos_of_ne_zero hlen
  have h' : (if (dkeys corpus).length = 0
      then some (Except.error PyErr.zeroDivisionError)
      else iterateLoop d (dkeys corpus).length fuel corpus []
        ((dkeys corpus).map (fun p => (p, 1 / (((dkeys corpus).length : ℕ) : ℚ))))) =
      some (.ok res) := h
  rw [if_neg hlen] at h'
  have hkinit : dkeys ((dkeys corpus).map
      (fun p => (p, 1 / (((dkeys corpus).length : ℕ) : ℚ)))) = dkeys corpus :=
    dkeys_map_self _ _
  have hNinit : (dkeys ((dkeys corpus).map
      (fun p => (p, 1 / (((dkeys corpus).length : ℕ) : ℚ))))).Nodup := by
    rw [hkinit]; exact hN
  have hnn : RanksNonneg ((dkeys corpus).map
      (fun p => (p, 1 / (((dkeys corpus).length : ℕ) : ℚ)))) := by
    intro e he
    obtain ⟨p, _, rfl⟩ := List.mem_map.1 he
    show (0:ℚ) ≤ 1 / (((dkeys corpus).length : ℕ) : ℚ)
    positivity
  have hbinit : ∀ p ∈ dkeys ((dkeys corpus).map
      (fun p => (p, 1 / (((dkeys corpus).length : ℕ) : ℚ)))),
      (1 - d) / ((dkeys corpus).length : ℚ) ≤
        dlookupD ((dkeys corpus).map
          (fun p => (p, 1 / (((dkeys corpus).length : ℕ) : ℚ)))) p 0 := by
    intro p hp
    rw [hkinit] at hp
    rw [dlookupD, dlookup_map_self, if_pos hp]
    show (1 - d) / ((dkeys corpus).length : ℚ) ≤ 1 / (((dkeys corpus).length : ℕ) : ℚ)
    gcongr
    linarith
  obtain ⟨hk, hb⟩ := iterateLoop_ok_inv d (dkeys corpus).length hd0 hd1.le fuel
    corpus [] _ res h' hNinit hnn hbinit
  refine ⟨fun r => by simp [is_coverged], hk.trans hkinit, ?_, hb⟩
  exact div_pos (by linarith) hpos

/-- Witness for C10: the run on `G2` with damping `1/2`, which converges to
the uniform ranks, all equal to `1/2 ≥ (1 - 1/2)/2 = 1/4 > 0`. -/
theorem C10_first_sweep_and_positive_ranks_witness :
    ((dkeys G2).Nodup ∧ dkeys G2 ≠ [] ∧ (0:ℚ) ≤ 1/2 ∧ (1/2:ℚ) < 1 ∧
      iterate_pagerank 10 G2 (1/2) = some (.ok [("a", 1/2), ("b", 1/2)])) ∧
    ((∀ r : Dict ℚ, is_coverged [] r = some false) ∧
      dkeys [(("a" : Page), (1:ℚ)/2), ("b", 1/2)] = dkeys G2 ∧
      0 < (1 - 1/2) / ((dkeys G2).length : ℚ) ∧
      ∀ p ∈ dkeys [(("a" : Page), (1:ℚ)/2), ("b", 1/2)],
        (1 - 1/2) / ((dkeys G2).length : ℚ) ≤
          dlookupD [(("a" : Page), (1:ℚ)/2), ("b", 1/2)] p 0) :=
  ⟨⟨by decide!, by decide!, by norm_num, by norm_num, by decide!⟩,
    C10_first_sweep_and_positive_ranks G2 (1/2) 10 [("a", 1/2), ("b", 1/2)]
      (by decide!) (by decide!) (by norm_num) (by norm_num) (by decide!)⟩

theorem transition_modelH_evolves (h : Heap) (corpusRef : ℕ) (page : Page)
    (d : ℚ) :
    Evolves (h.allocDict (h.getDict corpusRef)).2 (h.allocDict (h.getDict corpusRef)).1
      (transition_modelH h corpusRef page d).1 := by
  rw [transition_modelH]
  dsimp only
  cases dlookup page
      ((h.allocDict (h.getDict corpusRef)).1.getDict (h.allocDict (h.getDict corpusRef)).2) with
  | none => exact evolves_refl _ _
  | some sref =>
    dsimp only
    exact evolves_substituteH _ _ _

theorem iterate_pagerankH_evolves (fuel : ℕ) (h : Heap) (corpusRef : ℕ) (d : ℚ) :
    Evolves (h.allocDict (h.getDict corpusRef)).2 (h.allocDict (h.getDict corpusRef)).1
      (iterate_pagerankH fuel h corpusRef d).1 := by
  rw [iterate_pagerankH]
  dsimp only
  split
  · exact evolves_refl _ _
  · exact evolves_iterateLoopH d _ _ fuel _ _ _

/-- C7: neither `transition_model` nor `iterate_pagerank` mutates the
caller's corpus.  In the heap embedding — dict and set cells addressed by
allocation index, `corpus.copy()` a fresh dict cell sharing set addresses,
the no-outbound-links substitution a write to the fresh cell pointing at a
freshly allocated set — after either call the caller's dict cell and every
neighbor-set cell it references hold exactly their previous contents. -/
theorem C7_corpus_never_mutated (h : Heap) (corpusRef : ℕ) (page : Page)
    (d : ℚ) (fuel : ℕ) (hc : corpusRef < h.dicts.length)
    (hrefs : ∀ e ∈ h.getDict corpusRef, e.2 < h.sets.length) :
    ((transition_modelH h corpusRef page d).1.getDict corpusRef = h.getDict corpusRef ∧
      ∀ e ∈ h.getDict corpusRef,
        (transition_modelH h corpusRef page d).1.getSet e.2 = h.getSet e.2) ∧
    ((iterate_pagerankH fuel h corpusRef d).1.getDict corpusRef = h.getDict corpusRef ∧
      ∀ e ∈ h.getDict corpusRef,
        (iterate_pagerankH fuel h corpusRef d).1.getSet e.2 = h.getSet e.2) := by
  have ht := frame_after_copy h corpusRef (transition_modelH h corpusRef page d).1 hc
    (by
      have he := transition_modelH_evolves h corpusRef page d
      exact he)
  have hi := frame_after_copy h corpusRef (iterate_pagerankH fuel h corpusRef d).1 hc
    (by
      have he := iterate_pagerankH_evolves fuel h corpusRef d
      exact he)
  exact ⟨⟨ht.1, fun e he => ht.2 e.2 (hrefs e he)⟩,
    ⟨hi.1, fun e he => hi.2 e.2 (hrefs e he)⟩⟩

/-- Witness for C7: a two-page heap corpus `{a ↦ set 0 = {b}, b ↦ set 1 = {}}`
(exercising the empty-set substitution path), page `a`, damping `1/2`,
fuel `4`. -/
theorem C7_corpus_never_mutated_witness :
    ((0 : ℕ) < (Heap.mk [[("a", 0), ("b", 1)]] [["b"], []]).dicts.length ∧
      (∀ e ∈ (Heap.mk [[("a", 0), ("b", 1)]] [["b"], []]).getDict 0,
        e.2 < (Heap.mk [[("a", 0), ("b", 1)]] [["b"], []]).sets.length)) ∧
    (((transition_modelH (Heap.mk [[("a", 0), ("b", 1)]] [["b"], []]) 0 "a" (1/2)).1.getDict 0 =
        (Heap.mk [[("a", 0), ("b", 1)]] [["b"], []]).getDict 0 ∧
      ∀ e ∈ (Heap.mk [[("a", 0), ("b", 1)]] [["b"], []]).getDict 0,
        (transition_modelH (Heap.mk [[("a", 0), ("b", 1)]] [["b"], []]) 0 "a" (1/2)).1.getSet e.2 =
          (Heap.mk [[("a", 0), ("b", 1)]] [["b"], []]).getSet e.2) ∧
    ((iterate_pagerankH 4 (Heap.mk [[("a", 0), ("b", 1)]] [["b"], []]) 0 (1/2)).1.getDict 0 =
        (Heap.mk [[("a", 0), ("b", 1)]] [["b"], []]).getDict 0 ∧
      ∀ e ∈ (Heap.mk [[("a", 0), ("b", 1)]] [["b"], []]).getDict 0,
        (iterate_pagerankH 4 (Heap.mk [[("a", 0), ("b", 1)]] [["b"], []]) 0 (1/2)).1.getSet e.2 =
          (Heap.mk [[("a", 0), ("b", 1)]] [["b"], []]).getSet e.2)) :=
  ⟨⟨by decide!, by decide!⟩,
    C7_corpus_never_mutated (Heap.mk [[("a", 0), ("b", 1)]] [["b"], []]) 0 "a" (1/2) 4
      (by decide!) (by decide!)⟩

end PageRank
